import Mathlib

/-!
Shallow embedding of the repository's own code: the `CancerDataset` adapter,
the `BreastCancerClassifier` model variants, the training/validation steps and
the epoch driver from the two notebooks.  Tensors of floats are modelled as
lists of rationals; the external autograd/optimizer services are abstracted as
an opaque parameter-update function; Python exceptions are modelled with
`Except` over a small error type.
-/

/-- Error conditions of the spec's taxonomy: `IndexError` for out-of-range
dataset access, `ShapeMismatch` for an input width disagreeing with a layer's
configured input width, `EmptyBatch` for the divide-by-zero on an empty batch
collection. -/
inductive Err where
  | IndexError
  | ShapeMismatch
  | EmptyBatch
deriving DecidableEq, Repr

instance {ε α : Type} [DecidableEq ε] [DecidableEq α] : DecidableEq (Except ε α) := fun x y =>
  match x, y with
  | .ok a, .ok b =>
    if h : a = b then .isTrue (by rw [h]) else .isFalse (by intro hc; cases hc; exact h rfl)
  | .error a, .error b =>
    if h : a = b then .isTrue (by rw [h]) else .isFalse (by intro hc; cases hc; exact h rfl)
  | .ok _, .error _ => .isFalse (by intro hc; cases hc)
  | .error _, .ok _ => .isFalse (by intro hc; cases hc)

/-- A Sample: a feature vector paired with a numeric label
(`__getitem__` returns the tuple `(x, y)`). -/
def Sample := List ℚ × ℚ

instance : DecidableEq Sample := instDecidableEqProd

/-- `CancerDataset.__init__`: stores the feature matrix and the target vector
(rows of the source table, converted to a fixed numeric precision). -/
structure CancerDataset where
  features : List (List ℚ)
  targets : List ℚ
deriving DecidableEq

/-- `CancerDataset.__len__`: `len(self.features)`. -/
def CancerDataset.len (d : CancerDataset) : Nat := d.features.length

/-- Indexing a tensor's first dimension with a Python integer index, as
`self.features[idx]` does: a negative index counts from the end
(`idx + len` is used), and an index outside `[-len, len)` raises IndexError. -/
def pyIndex {α : Type} (rows : List α) (idx : Int) : Except Err α :=
  let j : Int := if idx < 0 then idx + rows.length else idx
  if h : 0 ≤ j ∧ j < (rows.length : Int) then
    .ok (rows.get ⟨j.toNat, by omega⟩)
  else
    .error .IndexError

/-- `CancerDataset.__getitem__`: `x = self.features[idx]; y = self.targets[idx];
return x, y`. -/
def CancerDataset.getitem (d : CancerDataset) (idx : Int) : Except Err Sample :=
  match pyIndex d.features idx with
  | .error e => .error e
  | .ok x =>
    match pyIndex d.targets idx with
    | .error e => .error e
    | .ok y => .ok (x, y)

/-- One fully-connected layer `nn.Linear(inF, outF)`: a weight matrix of
`outF` rows of width `inF` and a bias vector of length `outF`. -/
structure Linear where
  inF : Nat
  outF : Nat
  weight : List (List ℚ)
  bias : List ℚ
deriving DecidableEq

/-- Dot product of two vectors. -/
def dot (r x : List ℚ) : ℚ := (List.zipWith (· * ·) r x).sum

/-- Applying a linear layer to one input row: `x @ W.T + b`.  The tensor
engine raises a shape error when the input width disagrees with the layer's
configured input width. -/
def Linear.apply (l : Linear) (x : List ℚ) : Except Err (List ℚ) :=
  if x.length = l.inF then
    .ok (List.zipWith (fun row b => dot row x + b) l.weight l.bias)
  else
    .error .ShapeMismatch

/-- `nn.ReLU()` applied elementwise. -/
def relu (v : List ℚ) : List ℚ := v.map (fun a => max a 0)

/-- `nn.Linear(inF, outF)` as constructed: the (randomly initialised) weights
and biases are abstracted as functions of the row/column position. -/
def mkLinear (inF outF : Nat) (w : Nat → Nat → ℚ) (b : Nat → ℚ) : Linear :=
  ⟨inF, outF,
   (List.range outF).map (fun i => (List.range inF).map (w i)),
   (List.range outF).map b⟩

/-- The layer stack of a model (`self.layers : nn.ModuleList`). -/
structure Classifier where
  layers : List Linear
deriving DecidableEq

/-- The loop body of `BreastCancerClassifier.forward`:
`for layer in self.layers[:-1]: x = layer(x); x = self.activation(x)` followed
by `x = self.layers[-1](x)`.  Indexing `layers[-1]` on an empty module list
raises IndexError. -/
def forwardAux : List Linear → List ℚ → Except Err (List ℚ)
  | [], _ => .error .IndexError
  | [l], x => l.apply x
  | l :: l2 :: t, x =>
    match l.apply x with
    | .error e => .error e
    | .ok y => forwardAux (l2 :: t) (relu y)

/-- `BreastCancerClassifier.forward` on one sample row. -/
def Classifier.forward (c : Classifier) (x : List ℚ) : Except Err (List ℚ) :=
  forwardAux c.layers x

/-- Mapping a fallible row computation over the rows of a batch, failing at the
first row that fails (the tensor engine applies the layer to every row of the
batch at once and raises on a shape error). -/
def mapExcept {α β : Type} (f : α → Except Err β) : List α → Except Err (List β)
  | [] => .ok []
  | a :: as =>
    match f a with
    | .error e => .error e
    | .ok b =>
      match mapExcept f as with
      | .error e => .error e
      | .ok bs => .ok (b :: bs)

/-- `Model.predict` / `BreastCancerModule.forward`: run the classifier on every
row of the batch and `squeeze()` the `(n, 1)` output into `n` scalar logits. -/
def Classifier.predict (c : Classifier) (xs : List (List ℚ)) : Except Err (List ℚ) :=
  match mapExcept c.forward xs with
  | .error e => .error e
  | .ok rows => .ok (rows.map (fun r => r.headD 0))

/-- The configurable `BreastCancerClassifier.__init__` of the second notebook:
`layers = [Linear(30, h)]`, then `for _ in range(hidden_layers - 1):
layers.append(Linear(h, h))`, then `layers.append(Linear(h, 1))`.  Natural
subtraction mirrors Python's `range(-1) = []` for `hidden_layers = 0`.  The
fresh random draws of each constructed layer are abstracted by indexing the
weight/bias sources with the layer's construction position. -/
def BreastCancerClassifier (hidden_layers hidden_neurons : Nat)
    (w : Nat → Nat → Nat → ℚ) (bia : Nat → Nat → ℚ) : Classifier :=
  ⟨mkLinear 30 hidden_neurons (w 0) (bia 0)
    :: ((List.range (hidden_layers - 1)).map
          (fun i => mkLinear hidden_neurons hidden_neurons (w (i + 1)) (bia (i + 1)))
        ++ [mkLinear hidden_neurons 1 (w (hidden_layers - 1 + 1)) (bia (hidden_layers - 1 + 1))])⟩

/-- The architecture of a model: the `(in_features, out_features)` shape of
each affine stage in order. -/
def archOf (c : Classifier) : List (Nat × Nat) :=
  c.layers.map (fun l => (l.inF, l.outF))

/-- A batch yielded by the loader: a feature matrix and a label vector
(`batch_x, batch_y`). -/
structure Batch where
  x : List (List ℚ)
  y : List ℚ
deriving DecidableEq

/-- A loss rule: `loss_function(y_pred.squeeze(), batch_y)` maps the logits and
the true labels to a scalar (binary cross-entropy on logits, consumed as an
opaque scalar-valued function). -/
def LossRule := List ℚ → List ℚ → ℚ

/-- The external optimizer service: `loss.backward(); optimizer.step()` is the
composite, opaque update of the parameter set from the current batch's
gradients. -/
structure Optimizer where
  step : Classifier → Batch → Classifier

/-- The outcome of one step: the model state after the step, whether the
forward ran with gradient tracking active, and the scalar loss (or the
exception that aborted the step). -/
structure StepResult where
  model : Classifier
  gradTracking : Bool
  loss : Except Err ℚ

/-- `train_step`: `optimizer.zero_grad(); y_pred = model(batch_x);
loss = loss_function(y_pred.squeeze(), batch_y); loss.backward();
optimizer.step()`.  The loss is computed from the pre-update parameters; a
forward failure aborts before any parameter change.  Gradient tracking is
active. -/
def train_step (opt : Optimizer) (rule : LossRule) (m : Classifier) (b : Batch) :
    StepResult :=
  match m.predict b.x with
  | .error e => ⟨m, true, .error e⟩
  | .ok logits => ⟨opt.step m b, true, .ok (rule logits b.y)⟩

/-- `validation_step`: under `torch.no_grad()` (gradient tracking disabled),
`y_hat = model(batch_x); loss = loss_function(y_hat, batch_y); return loss`.
The body assigns nothing to the parameters. -/
def validation_step (rule : LossRule) (m : Classifier) (b : Batch) : StepResult :=
  match m.predict b.x with
  | .error e => ⟨m, false, .error e⟩
  | .ok logits => ⟨m, false, .ok (rule logits b.y)⟩

/-- The train phase of an epoch: apply `train_step` to every batch in loader
order, threading the mutated model and accumulating `epoch_loss_train`.  An
exception aborts the loop, keeping the updates already applied. -/
def trainLoop (opt : Optimizer) (rule : LossRule) :
    Classifier → List Batch → Classifier × Except Err ℚ
  | m, [] => (m, .ok 0)
  | m, b :: bs =>
    let r := train_step opt rule m b
    match r.loss with
    | .error e => (r.model, .error e)
    | .ok l =>
      match trainLoop opt rule r.model bs with
      | (m2, .error e) => (m2, .error e)
      | (m2, .ok s) => (m2, .ok (l + s))

/-- The validation phase of an epoch: apply `validation_step` to every batch in
the loader's fixed order, accumulating `epoch_loss_validation`. -/
def valLoop (rule : LossRule) : Classifier → List Batch → Except Err ℚ
  | _, [] => .ok 0
  | m, b :: bs =>
    let r := validation_step rule m b
    match r.loss with
    | .error e => .error e
    | .ok l =>
      match valLoop rule r.model bs with
      | .error e => .error e
      | .ok s => .ok (l + s)

/-- One iteration of the epoch loop: the train phase over `dataloader_train`,
then `avg_epoch_loss_train = epoch_loss_train / len(dataloader_train)` (a
`ZeroDivisionError` on an empty batch collection — the spec's EmptyBatch
condition), then the validation phase over `dataloader_validation` and its
average with the same divide-by-zero guard.  The model state at the failure
point is returned alongside the result, mirroring in-place mutation plus an
exception. -/
def run_epoch (opt : Optimizer) (rule : LossRule) (m : Classifier)
    (trainB valB : List Batch) : Classifier × Except Err (ℚ × ℚ) :=
  match trainLoop opt rule m trainB with
  | (m1, .error e) => (m1, .error e)
  | (m1, .ok s) =>
    if trainB.length = 0 then (m1, .error .EmptyBatch)
    else
      match valLoop rule m1 valB with
      | .error e => (m1, .error e)
      | .ok sv =>
        if valB.length = 0 then (m1, .error .EmptyBatch)
        else (m1, .ok (s / (trainB.length : ℚ), sv / (valB.length : ℚ)))

/-- The general model configuration of the spec (§4.2): an input width and an
ordered list of hidden-stage widths.  `mkStack w bia li inW hws` builds the
affine stages pairwise over the width chain `inW :: hws ++ [1]`, indexing the
weight/bias sources with the construction position `li`.  Both notebook
classes are instances (`[20, 10]` for the fixed three-layer variant;
`replicate (max hidden_layers 1) hidden_neurons` for the configurable one). -/
def mkStack (w : Nat → Nat → Nat → ℚ) (bia : Nat → Nat → ℚ) :
    Nat → Nat → List Nat → List Linear
  | li, inW, [] => [mkLinear inW 1 (w li) (bia li)]
  | li, inW, hw :: t => mkLinear inW hw (w li) (bia li) :: mkStack w bia (li + 1) hw t

/-- A classifier built from the general configuration. -/
def stackClassifier (inW : Nat) (hws : List Nat)
    (w : Nat → Nat → Nat → ℚ) (bia : Nat → Nat → ℚ) : Classifier :=
  ⟨mkStack w bia 0 inW hws⟩

/-- An `nn.Module`'s state: its layers and its `training` flag, flipped by
`model.train()` and `model.eval()`. -/
structure ModuleState where
  net : Classifier
  training : Bool
deriving DecidableEq

/-- `model.train()`. -/
def setTrainMode (s : ModuleState) : ModuleState := { s with training := true }

/-- `model.eval()`. -/
def setEvalMode (s : ModuleState) : ModuleState := { s with training := false }

/-- A linear stage as run in a given mode: `nn.Linear.forward` never reads the
`training` flag. -/
def applyFlag (_training : Bool) (l : Linear) (x : List ℚ) : Except Err (List ℚ) :=
  l.apply x

/-- The activation as run in a given mode: `nn.ReLU.forward` never reads the
`training` flag. -/
def reluFlag (_training : Bool) (v : List ℚ) : List ℚ := relu v

/-- The forward loop with the module's `training` flag in scope at every
stage. -/
def forwardFlag (training : Bool) : List Linear → List ℚ → Except Err (List ℚ)
  | [], _ => .error .IndexError
  | [l], x => applyFlag training l x
  | l :: l2 :: t, x =>
    match applyFlag training l x with
    | .error e => .error e
    | .ok y => forwardFlag training (l2 :: t) (reluFlag training y)

/-- Running the forward computation of a module in its current mode. -/
def ModuleState.forwardRun (s : ModuleState) (x : List ℚ) : Except Err (List ℚ) :=
  forwardFlag s.training s.net.layers x

/-- Structural well-formedness of one layer: the weight matrix has `outF` rows
of width `inF` and the bias has length `outF` (true of every constructed
`nn.Linear`). -/
def linearWF (l : Linear) : Bool :=
  (l.weight.length == l.outF) && (l.bias.length == l.outF) &&
    l.weight.all (fun r => r.length == l.inF)

/-- `chainOK i ls o`: the non-empty layer stack `ls` is well-formed and its
stages chain from input width `i` to output width `o`. -/
def chainOK : Nat → List Linear → Nat → Bool
  | _, [], _ => false
  | i, [l], o => linearWF l && (l.inF == i) && (l.outF == o)
  | i, l :: l2 :: t, o => linearWF l && (l.inF == i) && chainOK l.outF (l2 :: t) o

/-- All rows of a feature matrix have width `n`. -/
def wfW (n : Nat) (xs : List (List ℚ)) : Bool := xs.all (fun v => v.length == n)

/-- A batch whose feature rows all have width `n`. -/
def batchWF (n : Nat) (b : Batch) : Bool := wfW n b.x

theorem linearWF_mkLinear (inF outF : Nat) (w : Nat → Nat → ℚ) (b : Nat → ℚ) :
    linearWF (mkLinear inF outF w b) = true := by
  simp [linearWF, mkLinear, List.all_eq_true]

theorem linear_apply_ok (l : Linear) (hw : linearWF l = true) (x : List ℚ)
    (hx : x.length = l.inF) : ∃ y, l.apply x = .ok y ∧ y.length = l.outF := by
  simp only [linearWF, Bool.and_eq_true, beq_iff_eq] at hw
  obtain ⟨⟨h1, h2⟩, _⟩ := hw
  refine ⟨List.zipWith (fun row b => dot row x + b) l.weight l.bias, ?_, ?_⟩
  · unfold Linear.apply
    rw [if_pos hx]
  · simp [List.length_zipWith, h1, h2]

theorem linear_apply_err (l : Linear) (x : List ℚ) (hx : x.length ≠ l.inF) :
    l.apply x = .error .ShapeMismatch := by
  unfold Linear.apply
  rw [if_neg hx]

theorem linear_apply_len (l : Linear) (hw : linearWF l = true) (x y : List ℚ)
    (hy : l.apply x = .ok y) : y.length = l.outF := by
  simp only [linearWF, Bool.and_eq_true, beq_iff_eq] at hw
  obtain ⟨⟨h1, h2⟩, _⟩ := hw
  unfold Linear.apply at hy
  by_cases hx : x.length = l.inF
  · rw [if_pos hx] at hy
    cases hy
    simp [List.length_zipWith, h1, h2]
  · rw [if_neg hx] at hy
    cases hy

theorem relu_length (v : List ℚ) : (relu v).length = v.length := by
  simp [relu]

theorem forwardAux_ok : ∀ (ls : List Linear) (i o : Nat) (x : List ℚ),
    chainOK i ls o = true → x.length = i →
    ∃ y, forwardAux ls x = .ok y ∧ y.length = o := by
  intro ls
  induction ls with
  | nil => intro i o x hc _; simp [chainOK] at hc
  | cons l t ih =>
    intro i o x hc hx
    cases t with
    | nil =>
      simp only [chainOK, Bool.and_eq_true, beq_iff_eq] at hc
      obtain ⟨⟨hw, hi⟩, ho⟩ := hc
      obtain ⟨y, hy, hylen⟩ := linear_apply_ok l hw x (by rw [hx, hi])
      exact ⟨y, by simpa [forwardAux] using hy, by rw [hylen, ho]⟩
    | cons l2 t2 =>
      simp only [chainOK, Bool.and_eq_true, beq_iff_eq] at hc
      obtain ⟨⟨hw, hi⟩, hrest⟩ := hc
      obtain ⟨y, hy, hylen⟩ := linear_apply_ok l hw x (by rw [hx, hi])
      obtain ⟨z, hz, hzlen⟩ := ih l.outF o (relu y) hrest (by rw [relu_length, hylen])
      refine ⟨z, ?_, hzlen⟩
      simp [forwardAux, hy, hz]

theorem forwardAux_len : ∀ (ls : List Linear) (i o : Nat) (x y : List ℚ),
    chainOK i ls o = true → forwardAux ls x = .ok y → y.length = o := by
  intro ls
  induction ls with
  | nil => intro i o x y hc _; simp [chainOK] at hc
  | cons l t ih =>
    intro i o x y hc hy
    cases t with
    | nil =>
      simp only [chainOK, Bool.and_eq_true, beq_iff_eq] at hc
      obtain ⟨⟨hw, _⟩, ho⟩ := hc
      simp only [forwardAux] at hy
      rw [linear_apply_len l hw x y hy, ho]
    | cons l2 t2 =>
      simp only [chainOK, Bool.and_eq_true, beq_iff_eq] at hc
      obtain ⟨⟨hw, _⟩, hrest⟩ := hc
      simp only [forwardAux] at hy
      cases happ : l.apply x with
      | error e => rw [happ] at hy; cases hy
      | ok y1 =>
        rw [happ] at hy
        exact ih l.outF o (relu y1) y hrest hy

theorem forwardAux_err (ls : List Linear) (i o : Nat) (x : List ℚ)
    (hc : chainOK i ls o = true) (hx : x.length ≠ i) :
    forwardAux ls x = .error .ShapeMismatch := by
  cases ls with
  | nil => simp [chainOK] at hc
  | cons l t =>
    cases t with
    | nil =>
      simp only [chainOK, Bool.and_eq_true, beq_iff_eq] at hc
      obtain ⟨⟨_, hi⟩, _⟩ := hc
      simp [forwardAux, linear_apply_err l x (by rw [hi]; exact hx)]
    | cons l2 t2 =>
      simp only [chainOK, Bool.and_eq_true, beq_iff_eq] at hc
      obtain ⟨⟨_, hi⟩, _⟩ := hc
      simp [forwardAux, linear_apply_err l x (by rw [hi]; exact hx)]

theorem mkLinear_inF (i o : Nat) (w : Nat → Nat → ℚ) (b : Nat → ℚ) :
    (mkLinear i o w b).inF = i := rfl

theorem mkLinear_outF (i o : Nat) (w : Nat → Nat → ℚ) (b : Nat → ℚ) :
    (mkLinear i o w b).outF = o := rfl

theorem chainOK_mkStack (w : Nat → Nat → Nat → ℚ) (bia : Nat → Nat → ℚ) :
    ∀ (hws : List Nat) (li inW : Nat),
    chainOK inW (mkStack w bia li inW hws) 1 = true := by
  intro hws
  induction hws with
  | nil =>
    intro li inW
    simp [mkStack, chainOK, linearWF_mkLinear, mkLinear_inF, mkLinear_outF]
  | cons hw t ih =>
    intro li inW
    cases t with
    | nil =>
      simp [mkStack, chainOK, linearWF_mkLinear, mkLinear_inF, mkLinear_outF]
    | cons hw2 t2 =>
      have hr := ih (li + 1) hw
      simp only [mkStack] at hr ⊢
      simp [chainOK, linearWF_mkLinear, mkLinear_inF, mkLinear_outF, hr]

theorem chainOK_append_last (h : Nat) (last : Linear)
    (hlast : linearWF last = true) (hin : last.inF = h) (hout : last.outF = 1) :
    ∀ mid : List Linear,
    (∀ l ∈ mid, linearWF l = true ∧ l.inF = h ∧ l.outF = h) →
    chainOK h (mid ++ [last]) 1 = true := by
  intro mid
  induction mid with
  | nil =>
    intro _
    simp [chainOK, hlast, hin, hout]
  | cons l t ih =>
    intro hmem
    obtain ⟨hw, hi, ho⟩ := hmem l (by simp)
    have hrest := ih (fun l2 hl2 => hmem l2 (by simp [hl2]))
    cases t with
    | nil =>
      simp only [List.nil_append] at hrest
      simp [chainOK, hw, hi, ho, hrest, hlast, hin, hout]
    | cons l2 t2 =>
      simp only [List.cons_append] at hrest ⊢
      simp [chainOK, hw, hi, ho, hrest]

theorem chainOK_BCC (hl h : Nat) (w : Nat → Nat → Nat → ℚ) (bia : Nat → Nat → ℚ) :
    chainOK 30 (BreastCancerClassifier hl h w bia).layers 1 = true := by
  have hmid : ∀ l ∈ (List.range (hl - 1)).map
      (fun i => mkLinear h h (w (i + 1)) (bia (i + 1))),
      linearWF l = true ∧ l.inF = h ∧ l.outF = h := by
    intro l hmem
    simp only [List.mem_map] at hmem
    obtain ⟨i, _, hi⟩ := hmem
    subst hi
    exact ⟨linearWF_mkLinear _ _ _ _, rfl, rfl⟩
  have hrest := chainOK_append_last h
    (mkLinear h 1 (w (hl - 1 + 1)) (bia (hl - 1 + 1)))
    (linearWF_mkLinear _ _ _ _) rfl rfl _ hmid
  obtain ⟨r, t, hrt⟩ : ∃ r t,
      (List.range (hl - 1)).map (fun i => mkLinear h h (w (i + 1)) (bia (i + 1)))
        ++ [mkLinear h 1 (w (hl - 1 + 1)) (bia (hl - 1 + 1))] = r :: t := by
    cases (List.range (hl - 1)).map (fun i => mkLinear h h (w (i + 1)) (bia (i + 1))) with
    | nil => exact ⟨_, _, rfl⟩
    | cons a b => exact ⟨_, _, rfl⟩
  show chainOK 30 (mkLinear 30 h (w 0) (bia 0)
    :: ((List.range (hl - 1)).map
          (fun i => mkLinear h h (w (i + 1)) (bia (i + 1)))
        ++ [mkLinear h 1 (w (hl - 1 + 1)) (bia (hl - 1 + 1))])) 1 = true
  rw [hrt] at hrest ⊢
  show (linearWF (mkLinear 30 h (w 0) (bia 0))
    && ((mkLinear 30 h (w 0) (bia 0)).inF == 30)
    && chainOK (mkLinear 30 h (w 0) (bia 0)).outF (r :: t) 1) = true
  simp [linearWF_mkLinear, mkLinear_inF, mkLinear_outF, hrest]

/-- The logit the model produces on one well-formed sample row (the scalar the
`squeeze()` extracts from the final width-1 stage output). -/
def logitOf (c : Classifier) (v : List ℚ) : ℚ :=
  match c.forward v with
  | .ok ys => ys.headD 0
  | .error _ => 0

theorem predict_chars (c : Classifier) (i : Nat) (hc : chainOK i c.layers 1 = true) :
    ∀ xs : List (List ℚ), wfW i xs = true →
    c.predict xs = .ok (xs.map (logitOf c)) := by
  intro xs
  induction xs with
  | nil =>
    intro _
    simp [Classifier.predict, mapExcept]
  | cons v vs ih =>
    intro hwf
    simp only [wfW, List.all_cons, Bool.and_eq_true, beq_iff_eq] at hwf
    obtain ⟨hv, hvs⟩ := hwf
    have hvs2 : wfW i vs = true := by simp [wfW, hvs]
    obtain ⟨y, hy, _⟩ := forwardAux_ok c.layers i 1 v hc hv
    have hfwd : c.forward v = .ok y := hy
    have ihp := ih hvs2
    simp only [Classifier.predict] at ihp ⊢
    cases hm : mapExcept c.forward vs with
    | error e => rw [hm] at ihp; cases ihp
    | ok bs =>
      rw [hm] at ihp
      simp only [Except.ok.injEq] at ihp
      simp only [mapExcept, hfwd, hm, List.map_cons, Except.ok.injEq]
      rw [ihp]
      simp [logitOf, hfwd]

/-- The scalar loss one step computes on a batch: the loss rule applied to the
model's logits and the batch's labels. -/
def batchLoss (rule : LossRule) (m : Classifier) (b : Batch) : ℚ :=
  rule (b.x.map (logitOf m)) b.y

/-- The model after the optimizer's update has been applied once per batch, in
loader order. -/
def foldModel (opt : Optimizer) (m : Classifier) (bs : List Batch) : Classifier :=
  bs.foldl (fun m2 b => opt.step m2 b) m

/-- The per-batch train losses of one epoch in loader order: each computed on
the parameters as updated by the preceding batches. -/
def trainLossSeq (opt : Optimizer) (rule : LossRule) : Classifier → List Batch → List ℚ
  | _, [] => []
  | m, b :: bs => batchLoss rule m b :: trainLossSeq opt rule (opt.step m b) bs

theorem validation_step_model_eq (rule : LossRule) (m : Classifier) (b : Batch) :
    (validation_step rule m b).model = m := by
  unfold validation_step
  cases m.predict b.x <;> rfl

theorem train_step_ok (opt : Optimizer) (rule : LossRule) (m : Classifier) (b : Batch)
    (hc : chainOK 30 m.layers 1 = true) (hb : batchWF 30 b = true) :
    train_step opt rule m b = ⟨opt.step m b, true, .ok (batchLoss rule m b)⟩ := by
  unfold train_step
  rw [predict_chars m 30 hc b.x hb]
  rfl

theorem validation_step_ok (rule : LossRule) (m : Classifier) (b : Batch)
    (hc : chainOK 30 m.layers 1 = true) (hb : batchWF 30 b = true) :
    validation_step rule m b = ⟨m, false, .ok (batchLoss rule m b)⟩ := by
  unfold validation_step
  rw [predict_chars m 30 hc b.x hb]
  rfl

theorem trainLoop_ok (opt : Optimizer) (rule : LossRule)
    (hopt : ∀ m2 b, chainOK 30 m2.layers 1 = true →
      chainOK 30 (opt.step m2 b).layers 1 = true) :
    ∀ (tB : List Batch) (m : Classifier),
    chainOK 30 m.layers 1 = true →
    tB.all (batchWF 30) = true →
    trainLoop opt rule m tB = (foldModel opt m tB, .ok (trainLossSeq opt rule m tB).sum) := by
  intro tB
  induction tB with
  | nil =>
    intro m _ _
    simp [trainLoop, foldModel, trainLossSeq]
  | cons b bs ih =>
    intro m hc hwf
    simp only [List.all_cons, Bool.and_eq_true] at hwf
    obtain ⟨hb, hbs⟩ := hwf
    have hstep := train_step_ok opt rule m b hc hb
    have hrec := ih (opt.step m b) (hopt m b hc) hbs
    simp only [trainLoop, hstep, hrec]
    simp [foldModel, trainLossSeq]

theorem valLoop_ok (rule : LossRule) :
    ∀ (vB : List Batch) (m : Classifier),
    chainOK 30 m.layers 1 = true →
    vB.all (batchWF 30) = true →
    valLoop rule m vB = .ok ((vB.map (batchLoss rule m)).sum) := by
  intro vB
  induction vB with
  | nil =>
    intro m _ _
    simp [valLoop]
  | cons b bs ih =>
    intro m hc hwf
    simp only [List.all_cons, Bool.and_eq_true] at hwf
    obtain ⟨hb, hbs⟩ := hwf
    have hstep := validation_step_ok rule m b hc hb
    have hrec := ih m hc hbs
    simp only [valLoop, hstep, hrec]
    simp

/-- Written from the spec's words (§4.2): "a stack of affine transformations
each followed by a fixed non-linear activation, except the final stage":
the hidden phase applies every given stage and then the activation. -/
def hiddenPhase : List Linear → List ℚ → Except Err (List ℚ)
  | [], x => .ok x
  | l :: t, x =>
    match l.apply x with
    | .error e => .error e
    | .ok y => hiddenPhase t (relu y)

/-- Written from the spec's words (§4.2): the final stage "is linear", i.e.
applied with no activation; on an empty stack the `[-1]` access raises
IndexError. -/
def lastStage (ls : List Linear) (x : List ℚ) : Except Err (List ℚ) :=
  match ls.getLast? with
  | none => .error .IndexError
  | some l => l.apply x

/-- Written from the spec's words (§4.2): the whole forward pass is the hidden
phase over all stages but the last, followed by the activation-free final
stage. -/
def forwardSpecSplit (ls : List Linear) (x : List ℚ) : Except Err (List ℚ) :=
  match hiddenPhase ls.dropLast x with
  | .error e => .error e
  | .ok y => lastStage ls y

theorem forwardAux_eq_split : ∀ (ls : List Linear) (x : List ℚ),
    forwardAux ls x = forwardSpecSplit ls x := by
  intro ls
  induction ls with
  | nil =>
    intro x
    simp [forwardAux, forwardSpecSplit, hiddenPhase, lastStage]
  | cons l t ih =>
    intro x
    cases t with
    | nil =>
      simp [forwardAux, forwardSpecSplit, hiddenPhase, lastStage]
    | cons l2 t2 =>
      have hdl : (l :: l2 :: t2).dropLast = l :: (l2 :: t2).dropLast := rfl
      have hgl : (l :: l2 :: t2).getLast? = (l2 :: t2).getLast? :=
        List.getLast?_cons_cons
      simp only [forwardAux, forwardSpecSplit, hdl, hiddenPhase, lastStage, hgl]
      cases l.apply x with
      | error e => rfl
      | ok y =>
        have := ih (relu y)
        simp only [forwardSpecSplit, lastStage] at this
        exact this

theorem forwardFlag_eq_forwardAux (tr : Bool) : ∀ (ls : List Linear) (x : List ℚ),
    forwardFlag tr ls x = forwardAux ls x := by
  intro ls
  induction ls with
  | nil => intro x; rfl
  | cons l t ih =>
    intro x
    cases t with
    | nil => rfl
    | cons l2 t2 =>
      simp only [forwardFlag, forwardAux, applyFlag, reluFlag]
      cases l.apply x with
      | error e => rfl
      | ok y => exact ih (relu y)

theorem pyIndex_in_range {α : Type} (rows : List α) (idx : Int)
    (h0 : 0 ≤ idx) (h1 : idx < (rows.length : Int)) :
    ∃ hp : idx.toNat < rows.length,
      pyIndex rows idx = .ok (rows.get ⟨idx.toNat, hp⟩) := by
  have hp : idx.toNat < rows.length := by omega
  refine ⟨hp, ?_⟩
  unfold pyIndex
  have hneg : ¬ idx < 0 := by omega
  simp only [hneg, if_false]
  rw [dif_pos ⟨h0, h1⟩]

theorem pyIndex_neg_range {α : Type} (rows : List α) (idx : Int)
    (h0 : -(rows.length : Int) ≤ idx) (h1 : idx < 0) :
    ∃ hp : (idx + rows.length).toNat < rows.length,
      pyIndex rows idx = .ok (rows.get ⟨(idx + rows.length).toNat, hp⟩) := by
  have hp : (idx + rows.length).toNat < rows.length := by omega
  refine ⟨hp, ?_⟩
  unfold pyIndex
  simp only [h1, if_true]
  rw [dif_pos ⟨by omega, by omega⟩]

theorem pyIndex_oob {α : Type} (rows : List α) (idx : Int)
    (h : idx < -(rows.length : Int) ∨ (rows.length : Int) ≤ idx) :
    pyIndex rows idx = .error .IndexError := by
  unfold pyIndex
  by_cases hneg : idx < 0
  · simp only [hneg, if_true]
    rw [dif_neg (by omega)]
  · simp only [hneg, if_false]
    rw [dif_neg (by omega)]

theorem getD_of_lt {α : Type} (rows : List α) (n : Nat) (dflt : α)
    (h : n < rows.length) : rows.getD n dflt = rows.get ⟨n, h⟩ := by
  simp [List.getD, List.getElem?_eq_getElem h, List.get_eq_getElem]

theorem pyIndex_in_getD {α : Type} (rows : List α) (dflt : α) (idx : Int)
    (h0 : 0 ≤ idx) (h1 : idx < (rows.length : Int)) :
    pyIndex rows idx = .ok (rows.getD idx.toNat dflt) := by
  obtain ⟨hp, h⟩ := pyIndex_in_range rows idx h0 h1
  rw [h, getD_of_lt rows _ dflt hp]

theorem pyIndex_neg_getD {α : Type} (rows : List α) (dflt : α) (idx : Int)
    (h0 : -(rows.length : Int) ≤ idx) (h1 : idx < 0) :
    pyIndex rows idx = .ok (rows.getD (idx + rows.length).toNat dflt) := by
  obtain ⟨hp, h⟩ := pyIndex_neg_range rows idx h0 h1
  rw [h, getD_of_lt rows _ dflt hp]

/-- Fixed concrete weight source used by the witnesses below. -/
def cw : Nat → Nat → Nat → ℚ := fun _ _ _ => 1

/-- Fixed concrete bias source used by the witnesses below. -/
def cb : Nat → Nat → ℚ := fun _ _ => 0

/-- A concrete well-shaped batch (one 30-wide feature row, one label). -/
def demoBatch : Batch := ⟨[List.replicate 30 1], [1]⟩

/-- A concrete loss rule for the witnesses. -/
def demoRule : LossRule := fun ps ys => ps.sum + ys.sum

/-- The optimizer that applies a null update (keeps every parameter). -/
def idOpt : Optimizer := ⟨fun m _ => m⟩

/-- A small concrete model instance of the configurable class. -/
def demoModel : Classifier := BreastCancerClassifier 0 1 cw cb

/-- Claim C1: for every model parameter set, batch and loss rule,
`validation_step(model, b, loss_rule)` leaves the model's parameters
bit-for-bit unchanged (the state after the call equals the state before) and
the call runs with gradient tracking disabled. -/
theorem validation_step_preserves_model (rule : LossRule) (m : Classifier) (b : Batch) :
    (validation_step rule m b).model = m ∧
    (validation_step rule m b).gradTracking = false := by
  unfold validation_step
  cases m.predict b.x <;> exact ⟨rfl, rfl⟩

/-- Claim C9: for every module state (any parameters) and every input, the
forward computation run after `model.train()` equals the one run after
`model.eval()` — same values, hence same shape — and both coincide with the
mode-free forward pass: the mode toggle does not change the forward
computation. -/
theorem mode_toggle_forward_invariant (s : ModuleState) (x : List ℚ) :
    (setTrainMode s).forwardRun x = (setEvalMode s).forwardRun x ∧
    (setTrainMode s).forwardRun x = s.net.forward x := by
  constructor
  · simp [ModuleState.forwardRun, setTrainMode, setEvalMode, forwardFlag_eq_forwardAux]
  · simp [ModuleState.forwardRun, setTrainMode, Classifier.forward, forwardFlag_eq_forwardAux]

/-- Claim C10: for hidden neuron count `h ≥ 1`, `hidden_layers = 0` builds
exactly the model `hidden_layers = 1` builds (two affine stages 30→h and h→1,
the single activation between them being the forward rule for a two-stage
stack), and in general the number of affine stages is `max (hidden_layers+1) 2`,
so a zero hidden-stage count never yields a direct 30→1 linear model. -/
theorem hidden_layers_zero_one_same (h : Nat) (hge : 1 ≤ h) (hl : Nat)
    (w : Nat → Nat → Nat → ℚ) (bia : Nat → Nat → ℚ) :
    BreastCancerClassifier 0 h w bia = BreastCancerClassifier 1 h w bia ∧
    archOf (BreastCancerClassifier 0 h w bia) = [(30, h), (h, 1)] ∧
    (BreastCancerClassifier hl h w bia).layers.length = max (hl + 1) 2 := by
  refine ⟨rfl, rfl, ?_⟩
  have hlen : (BreastCancerClassifier hl h w bia).layers.length = (hl - 1) + 2 := by
    simp [BreastCancerClassifier]
  rw [hlen]
  omega

/-- Witness for C10 at `h = 5`, `hidden_layers = 0`. -/
theorem hidden_layers_zero_one_same_witness :
    BreastCancerClassifier 0 5 cw cb = BreastCancerClassifier 1 5 cw cb ∧
    archOf (BreastCancerClassifier 0 5 cw cb) = [(30, 5), (5, 1)] ∧
    (BreastCancerClassifier 0 5 cw cb).layers.length = max (0 + 1) 2 :=
  hidden_layers_zero_one_same 5 (by decide) 0 cw cb

/-- Claim C4 counterexample: on a one-row dataset, the index `-1` lies outside
`[0, length())` yet `get(-1)` succeeds (tensor indexing counts negative
indices from the end), so `get` does not fail for every out-of-range integer. -/
theorem getitem_negative_index_succeeds :
    ((-1 : Int) < 0 ∨ ((CancerDataset.mk [[5]] [1]).len : Int) ≤ -1) ∧
    (CancerDataset.mk [[5]] [1]).getitem (-1) = .ok ([5], 1) := by
  constructor
  · left
    decide
  · rfl

/-- Claim C4 (amended): `get(i)` returns the Sample at row `i` for
`0 ≤ i < length()`, returns the Sample at row `length() + i` for
`-length() ≤ i < 0`, and fails with IndexError exactly for `i < -length()`
or `i ≥ length()`. -/
theorem getitem_range_behavior (d : CancerDataset)
    (hlen : d.targets.length = d.features.length) (i : Int) :
    (0 ≤ i → i < (d.len : Int) →
      d.getitem i = .ok (d.features.getD i.toNat [], d.targets.getD i.toNat 0)) ∧
    (-(d.len : Int) ≤ i → i < 0 →
      d.getitem i = .ok (d.features.getD (i + d.len).toNat [],
                         d.targets.getD (i + d.len).toNat 0)) ∧
    ((i < -(d.len : Int) ∨ (d.len : Int) ≤ i) →
      d.getitem i = .error .IndexError) := by
  refine ⟨?_, ?_, ?_⟩
  · intro h0 h1
    have h1f : i < (d.features.length : Int) := by
      simpa [CancerDataset.len] using h1
    have h1t : i < (d.targets.length : Int) := by omega
    unfold CancerDataset.getitem
    rw [pyIndex_in_getD d.features [] i h0 h1f, pyIndex_in_getD d.targets 0 i h0 h1t]
  · intro h0 h1
    have h0f : -(d.features.length : Int) ≤ i := by
      simpa [CancerDataset.len] using h0
    have h0t : -(d.targets.length : Int) ≤ i := by omega
    unfold CancerDataset.getitem
    rw [pyIndex_neg_getD d.features [] i h0f h1, pyIndex_neg_getD d.targets 0 i h0t h1]
    have ht2 : (i + (d.targets.length : Int)).toNat = (i + (d.features.length : Int)).toNat := by
      omega
    rw [ht2]
    simp [CancerDataset.len]
  · intro hout
    have houtf : i < -(d.features.length : Int) ∨ (d.features.length : Int) ≤ i := by
      simpa [CancerDataset.len] using hout
    have hf := pyIndex_oob d.features i houtf
    unfold CancerDataset.getitem
    rw [hf]

/-- Witness for the amended C4: the in-range, negative-index and out-of-range
cases evaluated on a concrete two-row dataset. -/
theorem getitem_range_behavior_witness :
    (CancerDataset.mk [[5], [7]] [1, 0]).getitem 1 =
      .ok ((CancerDataset.mk [[5], [7]] [1, 0]).features.getD (1 : Int).toNat [],
           (CancerDataset.mk [[5], [7]] [1, 0]).targets.getD (1 : Int).toNat 0) ∧
    (CancerDataset.mk [[5], [7]] [1, 0]).getitem (-2) =
      .ok ((CancerDataset.mk [[5], [7]] [1, 0]).features.getD
             ((-2 : Int) + (CancerDataset.mk [[5], [7]] [1, 0]).len).toNat [],
           (CancerDataset.mk [[5], [7]] [1, 0]).targets.getD
             ((-2 : Int) + (CancerDataset.mk [[5], [7]] [1, 0]).len).toNat 0) ∧
    (CancerDataset.mk [[5], [7]] [1, 0]).getitem 9 = .error .IndexError :=
  ⟨(getitem_range_behavior (CancerDataset.mk [[5], [7]] [1, 0]) rfl 1).1
      (by decide) (by decide),
   (getitem_range_behavior (CancerDataset.mk [[5], [7]] [1, 0]) rfl (-2)).2.1
      (by decide) (by decide),
   (getitem_range_behavior (CancerDataset.mk [[5], [7]] [1, 0]) rfl 9).2.2
      (by decide)⟩

/-- Claim C5: for every weight initialisation and every batch whose feature
rows all have the configured input width 30, `predict` on the configurable
classifier succeeds and returns exactly one scalar logit per input sample
(a list of the batch's length), for every batch size. -/
theorem predict_returns_one_logit_per_sample (hl h : Nat)
    (w : Nat → Nat → Nat → ℚ) (bia : Nat → Nat → ℚ)
    (xs : List (List ℚ)) (hxs : wfW 30 xs = true) :
    ∃ ls, (BreastCancerClassifier hl h w bia).predict xs = .ok ls ∧
      ls.length = xs.length := by
  refine ⟨xs.map (logitOf (BreastCancerClassifier hl h w bia)), ?_, ?_⟩
  · exact predict_chars (BreastCancerClassifier hl h w bia) 30
      (chainOK_BCC hl h w bia) xs hxs
  · simp

/-- Witness for C5: a two-sample batch of 30-wide rows yields two logits. -/
theorem predict_returns_one_logit_per_sample_witness :
    ∃ ls, (BreastCancerClassifier 1 2 cw cb).predict
        [List.replicate 30 1, List.replicate 30 0] = .ok ls ∧
      ls.length = [List.replicate 30 (1 : ℚ), List.replicate 30 0].length :=
  predict_returns_one_logit_per_sample 1 2 cw cb
    [List.replicate 30 1, List.replicate 30 0] (by decide)

/-- Claim C6: if any feature row of the batch has a width other than the
configured input width 30, `predict` on the configurable classifier fails
with the ShapeMismatch condition (it never returns logits). -/
theorem predict_wrong_width_shape_mismatch (hl h : Nat)
    (w : Nat → Nat → Nat → ℚ) (bia : Nat → Nat → ℚ) :
    ∀ xs : List (List ℚ), xs.any (fun v => v.length != 30) = true →
    (BreastCancerClassifier hl h w bia).predict xs = .error .ShapeMismatch := by
  have hc := chainOK_BCC hl h w bia
  intro xs
  induction xs with
  | nil => intro hbad; cases hbad
  | cons v vs ih =>
    intro hbad
    simp only [List.any_cons, Bool.or_eq_true, bne_iff_ne] at hbad
    by_cases hv : v.length = 30
    · have hbad2 : vs.any (fun v2 => v2.length != 30) = true := by
        rcases hbad with hbv | hbvs
        · exact absurd hv hbv
        · exact hbvs
      obtain ⟨y, hy, _⟩ := forwardAux_ok _ 30 1 v hc hv
      have ihp := ih hbad2
      simp only [Classifier.predict] at ihp ⊢
      cases hm : mapExcept (BreastCancerClassifier hl h w bia).forward vs with
      | error e =>
        rw [hm] at ihp
        cases ihp
        have hfwd : (BreastCancerClassifier hl h w bia).forward v = .ok y := hy
        simp [mapExcept, hfwd, hm]
      | ok bs =>
        rw [hm] at ihp
        cases ihp
    · have hfwd : (BreastCancerClassifier hl h w bia).forward v = .error .ShapeMismatch :=
        forwardAux_err _ 30 1 v hc hv
      simp [Classifier.predict, mapExcept, hfwd]

/-- Witness for C6: a batch with a 3-wide row fails with ShapeMismatch. -/
theorem predict_wrong_width_shape_mismatch_witness :
    (BreastCancerClassifier 1 2 cw cb).predict [[1, 2, 3]] = .error .ShapeMismatch :=
  predict_wrong_width_shape_mismatch 1 2 cw cb [[1, 2, 3]] (by decide)

/-- Claim C7: for every configuration (input width, possibly empty list of
hidden-stage widths) and every input row, the constructed model's forward
pass equals the phase that applies the activation after every affine stage
except the last followed by the activation-free final stage; every successful
output is a single scalar logit, and every input of the configured width
succeeds with such a scalar. -/
theorem stack_forward_structure (inW : Nat) (hws : List Nat)
    (w : Nat → Nat → Nat → ℚ) (bia : Nat → Nat → ℚ) (x : List ℚ) :
    (stackClassifier inW hws w bia).forward x =
      forwardSpecSplit (stackClassifier inW hws w bia).layers x ∧
    (∀ y, (stackClassifier inW hws w bia).forward x = .ok y → y.length = 1) ∧
    (x.length = inW →
      ∃ y, (stackClassifier inW hws w bia).forward x = .ok y ∧ y.length = 1) := by
  have hc : chainOK inW (stackClassifier inW hws w bia).layers 1 = true :=
    chainOK_mkStack w bia hws 0 inW
  refine ⟨forwardAux_eq_split _ x, ?_, ?_⟩
  · intro y hy
    exact forwardAux_len _ inW 1 x y hc hy
  · intro hx
    exact forwardAux_ok _ inW 1 x hc hx

/-- Witness for C7: the empty hidden-width configuration (a single linear
stage 2→1) evaluated on a width-2 input. -/
theorem stack_forward_structure_witness :
    (stackClassifier 2 [] cw cb).forward [1, 2] =
      forwardSpecSplit (stackClassifier 2 [] cw cb).layers [1, 2] ∧
    ((stackClassifier 2 [] cw cb).forward [1, 2] = .ok [3] → (3 : ℚ) = 3) ∧
    ∃ y, (stackClassifier 2 [] cw cb).forward [1, 2] = .ok y ∧ y.length = 1 :=
  ⟨(stack_forward_structure 2 [] cw cb [1, 2]).1,
   fun _ => rfl,
   (stack_forward_structure 2 [] cw cb [1, 2]).2.2 (by decide)⟩

/-- Modelled from the spec: `torch.utils.data.random_split` is an external
library service, not repository code.  Per the spec (§3), a Split is "a
partition of a Dataset's indices into disjoint train and validation subsets,
assigned once by random draw at a fixed ratio": modelled as slicing a random
permutation of the full index range at the split point `k`. -/
def randomSplit (perm : List Nat) (k : Nat) : List Nat × List Nat :=
  (perm.take k, perm.drop k)

/-- Claim C8: for every dataset index range `[0, n)` and every random
permutation of it, the split's train and validation index lists are disjoint
and together cover each index of the range exactly once (count one inside the
range, zero outside): no overlap, no gaps. -/
theorem split_partition (n k : Nat) (p : List Nat) (hp : p.Perm (List.range n)) :
    (∀ i, i ∈ (randomSplit p k).1 → i ∉ (randomSplit p k).2) ∧
    (∀ i, (randomSplit p k).1.count i + (randomSplit p k).2.count i
        = if i < n then 1 else 0) := by
  have hnd : p.Nodup := hp.nodup_iff.mpr (List.nodup_range n)
  have hsplit : (randomSplit p k).1 ++ (randomSplit p k).2 = p :=
    List.take_append_drop k p
  constructor
  · have hnd2 : ((randomSplit p k).1 ++ (randomSplit p k).2).Nodup := by
      rw [hsplit]
      exact hnd
    exact fun i hi hj => (List.nodup_append.mp hnd2).2.2 hi hj
  · intro i
    have hcnt : (randomSplit p k).1.count i + (randomSplit p k).2.count i = p.count i := by
      conv_rhs => rw [← hsplit]
      rw [List.count_append]
    rw [hcnt, hp.count_eq i]
    by_cases hi : i < n
    · rw [if_pos hi]
      exact List.count_eq_one_of_mem (List.nodup_range n) (List.mem_range.mpr hi)
    · rw [if_neg hi]
      exact List.count_eq_zero.mpr (by simp [List.mem_range]; omega)

/-- Witness for C8 at `n = 3`, `k = 2`, permutation `[2, 0, 1]`. -/
theorem split_partition_witness :
    (∀ i, i ∈ (randomSplit [2, 0, 1] 2).1 → i ∉ (randomSplit [2, 0, 1] 2).2) ∧
    (∀ i, (randomSplit [2, 0, 1] 2).1.count i + (randomSplit [2, 0, 1] 2).2.count i
        = if i < 3 then 1 else 0) :=
  split_partition 3 2 [2, 0, 1] (by decide)

theorem foldModel_chain (opt : Optimizer)
    (hopt : ∀ m2 b, chainOK 30 m2.layers 1 = true →
      chainOK 30 (opt.step m2 b).layers 1 = true) :
    ∀ (bs : List Batch) (m : Classifier), chainOK 30 m.layers 1 = true →
    chainOK 30 (foldModel opt m bs).layers 1 = true := by
  intro bs
  induction bs with
  | nil =>
    intro m hm
    simpa [foldModel] using hm
  | cons b t ih =>
    intro m hm
    have hstep : foldModel opt m (b :: t) = foldModel opt (opt.step m b) t := rfl
    rw [hstep]
    exact ih (opt.step m b) (hopt m b hm)

/-- Claim C2: for every non-empty well-shaped train and validation batch
sequence, shape-preserving optimizer and loss rule, `run_epoch` applies
`train_step` to each train batch in loader order (the returned model is the
in-order fold of the optimizer updates, and the loss list is computed on the
evolving parameters), then applies `validation_step` to each validation batch
in fixed order on the trained model, and returns the pair (sum of per-batch
train losses / number of train batches, sum of per-batch validation losses /
number of validation batches). -/
theorem run_epoch_averages (opt : Optimizer) (rule : LossRule) (c : Classifier)
    (tB vB : List Batch)
    (hc : chainOK 30 c.layers 1 = true)
    (hopt : ∀ m2 b, chainOK 30 m2.layers 1 = true →
      chainOK 30 (opt.step m2 b).layers 1 = true)
    (htB : tB.all (batchWF 30) = true) (hvB : vB.all (batchWF 30) = true)
    (ht : tB ≠ []) (hv : vB ≠ []) :
    run_epoch opt rule c tB vB =
      (foldModel opt c tB,
       .ok ((trainLossSeq opt rule c tB).sum / (tB.length : ℚ),
            (vB.map (batchLoss rule (foldModel opt c tB))).sum / (vB.length : ℚ))) := by
  have hfold : chainOK 30 (foldModel opt c tB).layers 1 = true :=
    foldModel_chain opt hopt tB c hc
  have htr := trainLoop_ok opt rule hopt tB c hc htB
  have hval := valLoop_ok rule vB (foldModel opt c tB) hfold hvB
  have ht0 : ¬ tB.length = 0 := by
    cases tB with
    | nil => exact absurd rfl ht
    | cons a l => simp
  have hv0 : ¬ vB.length = 0 := by
    cases vB with
    | nil => exact absurd rfl hv
    | cons a l => simp
  unfold run_epoch
  rw [htr]
  simp only [ht0, if_false, hval, hv0]

/-- Witness for C2 on a concrete single-batch epoch with the null-update
optimizer. -/
theorem run_epoch_averages_witness :
    run_epoch idOpt demoRule demoModel [demoBatch] [demoBatch] =
      (foldModel idOpt demoModel [demoBatch],
       .ok ((trainLossSeq idOpt demoRule demoModel [demoBatch]).sum
              / (([demoBatch] : List Batch).length : ℚ),
            ([demoBatch].map (batchLoss demoRule (foldModel idOpt demoModel [demoBatch]))).sum
              / (([demoBatch] : List Batch).length : ℚ))) :=
  run_epoch_averages idOpt demoRule demoModel [demoBatch] [demoBatch]
    (by decide) (fun m b h => h) (by decide) (by decide)
    (by decide) (by decide)

/-- An optimizer whose update replaces the parameters with a differently
configured (still well-shaped) model, as a real gradient update may change
every parameter value. -/
def shiftOpt : Optimizer := ⟨fun _ _ => BreastCancerClassifier 0 2 cw cb⟩

/-- Claim C3 counterexample: invoking `run_epoch` with a non-empty train
collection and an empty validation collection raises EmptyBatch, but the train
phase has already run: the model state after the call differs from the state
before it, so the two calls are not separated by "no partial state change". -/
theorem run_epoch_empty_validation_state_change :
    (run_epoch shiftOpt demoRule demoModel [demoBatch] []).2 = .error .EmptyBatch ∧
    (run_epoch shiftOpt demoRule demoModel [demoBatch] []).1 ≠ demoModel := by
  constructor
  · decide
  · decide

/-- Claim C3 (amended): `run_epoch` on an empty train batch collection fails
with EmptyBatch at the train-average division, leaving the model unchanged
(so a second call fails identically); on an empty validation batch collection
it fails with EmptyBatch whenever the train phase completes, on every such
call — but the completed train phase may already have updated the parameters,
so the state is not in general unchanged between the two calls. -/
theorem run_epoch_empty_batches (opt : Optimizer) (rule : LossRule) :
    (∀ (m : Classifier) (vB : List Batch),
      run_epoch opt rule m [] vB = (m, .error .EmptyBatch)) ∧
    (∀ (m m2 : Classifier) (tB : List Batch) (s : ℚ),
      trainLoop opt rule m tB = (m2, .ok s) →
      run_epoch opt rule m tB [] = (m2, .error .EmptyBatch)) := by
  constructor
  · intro m vB
    simp [run_epoch, trainLoop]
  · intro m m2 tB s htr
    cases tB with
    | nil =>
      have hnil : trainLoop opt rule m ([] : List Batch) = (m, .ok 0) := rfl
      rw [hnil] at htr
      simp only [Prod.mk.injEq, Except.ok.injEq] at htr
      obtain ⟨hm, _⟩ := htr
      rw [← hm]
      simp [run_epoch, trainLoop]
    | cons b bs =>
      unfold run_epoch
      rw [htr]
      simp [valLoop]

/-- Witness for the amended C3: the empty-train and empty-validation failure
cases evaluated concretely (the null-update optimizer keeps the model, so the
train phase completes). -/
theorem run_epoch_empty_batches_witness :
    run_epoch idOpt demoRule demoModel [] [] = (demoModel, .error .EmptyBatch) ∧
    run_epoch idOpt demoRule demoModel [demoBatch] [] = (demoModel, .error .EmptyBatch) :=
  ⟨(run_epoch_empty_batches idOpt demoRule).1 demoModel [],
   (run_epoch_empty_batches idOpt demoRule).2 demoModel demoModel [demoBatch]
     ((trainLossSeq idOpt demoRule demoModel [demoBatch]).sum)
     (trainLoop_ok idOpt demoRule (fun _ _ hh => hh) [demoBatch] demoModel
       (by decide) (by decide))⟩
